import Mathlib

/-!
Shallow embedding of the MoxField EDHREC combo userscript
(src/moxfield_edhrec_combo.js and its near-duplicate copy).

Strings are modelled as Lean strings; JS whitespace (the regex class \s
and the set removed by String.prototype.trim) is the explicit character
set below; JS toLowerCase is modelled by Char.toLower (the script only
ever feeds card names whose cased letters are basic latin).  Times are
Int milliseconds with the current instant passed explicitly, network
responses are an inductive argument, and the DOM is a small record, so
every function of the script becomes a pure state-passing function.
-/

namespace MoxCombo

/-- The characters matched by the JS regex class \s (also the set removed by
String.prototype.trim): tab through carriage return, space, NBSP, OGHAM space,
the U+2000..U+200A range, the two line separators, NNBSP, MMSP, ideographic
space and the BOM. -/
def isJsSpace (c : Char) : Bool :=
  let n := c.toNat
  (9 ≤ n && n ≤ 13) || n == 32 || n == 160 || n == 5760 ||
  (8192 ≤ n && n ≤ 8202) || n == 8232 || n == 8233 || n == 8239 ||
  n == 8287 || n == 12288 || n == 65279

/-- Characters kept by the replacement `.replace(/[^a-z0-9\s]/g, '')`:
lowercase basic latin letters, digits, and JS whitespace. -/
def keepChar (c : Char) : Bool :=
  let n := c.toNat
  (97 ≤ n && n ≤ 122) || (48 ≤ n && n ≤ 57) || isJsSpace c

/-- `String.prototype.trim`: drop JS whitespace at both ends. -/
def trimWs (l : List Char) : List Char :=
  ((l.dropWhile isJsSpace).reverse.dropWhile isJsSpace).reverse

/-- `.replace(/\s+/g, '-')`: every maximal run of JS whitespace becomes one
hyphen.  The boolean accumulator records whether we are inside a run. -/
def collapseWsAux : Bool → List Char → List Char
  | _, [] => []
  | inRun, c :: cs =>
    if isJsSpace c then
      if inRun then collapseWsAux true cs else '-' :: collapseWsAux true cs
    else c :: collapseWsAux false cs

/-- `formatCardName` on the underlying character list: lower-case, strip
everything but lowercase letters, digits and whitespace, trim, then replace
whitespace runs with single hyphens. -/
def formatChars (l : List Char) : List Char :=
  collapseWsAux false (trimWs ((l.map Char.toLower).filter keepChar))

/-- `formatCardName` from the script. -/
def formatCardName (s : String) : String :=
  ⟨formatChars s.data⟩

/-- Boolean test that `pre` begins `l` (character-wise). -/
def startsList : List Char → List Char → Bool
  | [], _ => true
  | _ :: _, [] => false
  | a :: as, b :: bs => a == b && startsList as bs

/-- `String.prototype.includes` on character lists: `needle` occurs
contiguously inside `hay`. -/
def includesList (needle : List Char) : List Char → Bool
  | [] => startsList needle []
  | c :: t => startsList needle (c :: t) || includesList needle t

/-- `hay.includes(needle)` from JS. -/
def strIncludes (hay needle : String) : Bool :=
  includesList needle.data hay.data

/-- One entry of a combo group's `cardviews` array (only the `sanitized`
field is read by the script). -/
structure Cardview where
  sanitized : String
deriving DecidableEq

/-- The `combo` sub-object of a group: its `results` strings. -/
structure ComboField where
  results : List String
deriving DecidableEq

/-- A combo group as it appears in `container.json_dict.cardlists`.
`cardviews` and `combo` may be absent (JS undefined/null); `header` is a
string, as every claim about the filter presupposes. -/
structure ComboGroup where
  header : String
  href : String
  cardviews : Option (List Cardview)
  combo : Option ComboField
deriving DecidableEq

/-- The Combo Record the script builds from a kept group. -/
structure ComboRecord where
  header : String
  href : String
  results : List String
deriving DecidableEq

/-- A parsed success body: `data.container?.json_dict?.cardlists` may be
absent, in which case `|| []` supplies the empty list. -/
structure ApiBody where
  cardlists : Option (List ComboGroup)
deriving DecidableEq

/-- A cached value: JS `null` is `none`, an array of combo records is
`some`. -/
abbrev CacheVal := Option (List ComboRecord)

/-- One stored cache entry: the value together with the `Date.now()` at
which `set` stored it. -/
structure Entry where
  value : CacheVal
  timestamp : Int
deriving DecidableEq

/-- `Map.prototype.get`: first binding for the key, if any. -/
def mapGet : List (String × Entry) → String → Option Entry
  | [], _ => none
  | (k, e) :: rest, key => if k == key then some e else mapGet rest key

/-- `Map.prototype.set`: replace the binding in place, else append. -/
def mapSet : List (String × Entry) → String → Entry → List (String × Entry)
  | [], key, e => [(key, e)]
  | (k, e0) :: rest, key, e =>
    if k == key then (key, e) :: rest else (k, e0) :: mapSet rest key e

/-- `Map.prototype.delete`: remove the binding for the key. -/
def mapDelete : List (String × Entry) → String → List (String × Entry)
  | [], _ => []
  | (k, e) :: rest, key =>
    if k == key then rest else (k, e) :: mapDelete rest key

/-- The TTLCache class: a ttl in milliseconds and the backing map. -/
structure TTLCache where
  ttl : Int
  cache : List (String × Entry)
deriving DecidableEq

/-- The constructor `new TTLCache(ttlHours = 1)`. -/
def mkTTLCache (ttlHours : Int) : TTLCache :=
  { ttl := ttlHours * 60 * 60 * 1000, cache := [] }

/-- `TTLCache.get`, with `Date.now()` passed explicitly.  Returns the JS
return value (`null` for a miss or an expired entry — note a stored `null`
value is returned as the same `null`) together with the cache after the
lazy deletion of an expired entry. -/
def TTLCache.get (c : TTLCache) (now : Int) (key : String) : CacheVal × TTLCache :=
  match mapGet c.cache key with
  | none => (none, c)
  | some item =>
    if now - item.timestamp > c.ttl then
      (none, { c with cache := mapDelete c.cache key })
    else
      (item.value, c)

/-- `TTLCache.set`, with `Date.now()` passed explicitly. -/
def TTLCache.set (c : TTLCache) (now : Int) (key : String) (value : CacheVal) : TTLCache :=
  { c with cache := mapSet c.cache key ⟨value, now⟩ }

/-- The outcome of the `fetch` call (and subsequent `response.json()`):
an ok response with a parsed body, a non-ok response with its status, or
a thrown network/parse error. -/
inductive FetchOutcome where
  | ok (body : ApiBody)
  | httpErr (status : Nat)
  | thrown
deriving DecidableEq

/-- The filter predicate inside `fetchComboData`:
`combo.cardviews && combo.cardviews.some(cv => cv.sanitized === formattedName)
 || combo.header.includes(cardName)` (JS precedence: `&&` binds tighter). -/
def keepGroup (formattedName cardName : String) (g : ComboGroup) : Bool :=
  (match g.cardviews with
   | some cvs => cvs.any fun cv => cv.sanitized == formattedName
   | none => false) || strIncludes g.header cardName

/-- The `.map` projection of a kept group:
`{ header, href, results: combo.combo?.results || [] }`. -/
def projGroup (g : ComboGroup) : ComboRecord :=
  { header := g.header
    href := g.href
    results := (g.combo.map ComboField.results).getD [] }

/-- The filter-then-map step of `fetchComboData` applied to a parsed
success body. -/
def filteredCombos (cardName : String) (body : ApiBody) : List ComboRecord :=
  ((body.cardlists.getD []).filter (keepGroup (formatCardName cardName) cardName)).map projGroup

/-- The keep condition in the spec's words: the group has a `cardviews`
list one entry of which has `sanitized` equal to the normalized slug of the
queried name, or the group's header contains the raw card name as a
substring. -/
def keepGroupSpec (cardName : String) (g : ComboGroup) : Prop :=
  (∃ cvs, g.cardviews = some cvs ∧ ∃ cv ∈ cvs, cv.sanitized = formatCardName cardName) ∨
  (∃ pre post, g.header.data = pre ++ cardName.data ++ post)

/-- The observable result of one `fetchComboData` invocation: the returned
value, the cache afterwards, and whether the network was consulted
(`fetched` is true exactly when control reached the `fetch` call). -/
structure FetchStep where
  value : CacheVal
  cache : TTLCache
  fetched : Bool
deriving DecidableEq

/-- `fetchComboData`: check the cache first — the cached value short-circuits
only when it is truthy (`if (cachedData)`), so a stored `null` falls through.
On a miss, consult the response: non-ok 403 caches `null`, other non-ok
statuses only log, a success filters the body and caches the list when it is
non-empty and `null` otherwise; a thrown error is caught and cached
nowhere. -/
def fetchComboData (c : TTLCache) (now : Int) (cardName : String)
    (resp : FetchOutcome) : FetchStep :=
  let looked := c.get now cardName
  let cachedData := looked.1
  let c1 := looked.2
  if cachedData.isSome then
    { value := cachedData, cache := c1, fetched := false }
  else
    match resp with
    | .thrown => { value := none, cache := c1, fetched := true }
    | .httpErr status =>
      if status == 403 then
        { value := none, cache := c1.set now cardName none, fetched := true }
      else
        { value := none, cache := c1, fetched := true }
    | .ok body =>
      let fc := filteredCombos cardName body
      let result : CacheVal := if fc.length > 0 then some fc else none
      { value := result, cache := c1.set now cardName result, fetched := true }

/-- One rendered combo entry: the anchor href (fixed origin plus the
combo's relative href), the title line, and the bulleted result strings. -/
structure RenderedCombo where
  href : String
  title : String
  results : List String
deriving DecidableEq

/-- The injected panel (the element with id `moxfield-combo-display`):
its header text and its combo entries. -/
structure Panel where
  headerText : String
  entries : List RenderedCombo
deriving DecidableEq

/-- The slice of the DOM the renderer touches: whether a panel with the
fixed id is present (and its contents), and whether the fixed aside anchor
element exists. -/
structure Dom where
  panel : Option Panel
  hasAside : Bool
deriving DecidableEq

/-- The panel `displayComboResults` builds for a non-null combo list. -/
def buildPanel (cardName : String) (comboData : List ComboRecord) : Panel :=
  { headerText := "Combo For " ++ cardName ++ " (" ++ toString comboData.length ++ ")"
    entries := comboData.map fun cb =>
      { href := "https://edhrec.com" ++ cb.href
        title := cb.header
        results := cb.results } }

/-- `displayComboResults`: remove any existing panel by id; stop if
`comboData` is null; stop if the aside anchor is missing; otherwise build
and append the new panel. -/
def displayComboResults (d : Dom) (cardName : String) (comboData : CacheVal) : Dom :=
  let d1 : Dom := { d with panel := none }
  match comboData with
  | none => d1
  | some l =>
    if d1.hasAside then
      { d1 with panel := some (buildPanel cardName l) }
    else
      d1

end MoxCombo

namespace MoxCombo

/-- A cached value as the script stores it: either the negative result
`null` or a non-empty list of combo records. -/
def WellFormedVal (v : CacheVal) : Prop :=
  v = none ∨ ∃ l, v = some l ∧ l ≠ []

/-- Every entry of the backing map stores a well-formed value. -/
def WellFormedCache (c : TTLCache) : Prop :=
  ∀ p ∈ c.cache, WellFormedVal p.2.value

/-- The JS `Map` invariant: each key occurs at most once in the backing
association list. -/
def UniqKeys (c : TTLCache) : Prop :=
  (c.cache.map Prod.fst).Nodup

theorem mapGet_mapSet_self (m : List (String × Entry)) (k : String) (e : Entry) :
    mapGet (mapSet m k e) k = some e := by
  induction m with
  | nil => simp [mapSet, mapGet]
  | cons p rest ih =>
    obtain ⟨k0, e0⟩ := p
    by_cases h : k0 = k
    · simp [mapSet, mapGet, h]
    · simp only [mapSet, mapGet, beq_iff_eq, if_neg h]
      exact ih

theorem mem_mapSet {m : List (String × Entry)} {k : String} {e : Entry} {p : String × Entry}
    (h : p ∈ mapSet m k e) : p = (k, e) ∨ p ∈ m := by
  induction m with
  | nil => simpa [mapSet] using h
  | cons q rest ih =>
    obtain ⟨k0, e0⟩ := q
    by_cases hk : k0 = k
    · simp only [mapSet, beq_iff_eq, if_pos hk, List.mem_cons] at h
      rcases h with h | h
      · exact Or.inl h
      · exact Or.inr (List.mem_cons_of_mem _ h)
    · simp only [mapSet, beq_iff_eq, if_neg hk, List.mem_cons] at h
      rcases h with h | h
      · exact Or.inr (by simp [h])
      · rcases ih h with h1 | h1
        · exact Or.inl h1
        · exact Or.inr (List.mem_cons_of_mem _ h1)

theorem mem_mapDelete {m : List (String × Entry)} {k : String} {p : String × Entry}
    (h : p ∈ mapDelete m k) : p ∈ m := by
  induction m with
  | nil => simp [mapDelete] at h
  | cons q rest ih =>
    obtain ⟨k0, e0⟩ := q
    by_cases hk : k0 = k
    · simp only [mapDelete, beq_iff_eq, if_pos hk] at h
      exact List.mem_cons_of_mem _ h
    · simp only [mapDelete, beq_iff_eq, if_neg hk, List.mem_cons] at h
      rcases h with h | h
      · simp [h]
      · exact List.mem_cons_of_mem _ (ih h)

theorem mapGet_eq_none_of_not_mem {m : List (String × Entry)} {k : String}
    (h : k ∉ m.map Prod.fst) : mapGet m k = none := by
  induction m with
  | nil => rfl
  | cons q rest ih =>
    obtain ⟨k0, e0⟩ := q
    simp only [List.map_cons, List.mem_cons] at h
    push_neg at h
    have hne : ¬ (k0 = k) := fun hk => h.1 hk.symm
    simp only [mapGet, beq_iff_eq]
    rw [if_neg hne]
    exact ih h.2

theorem mapGet_mapDelete_self {m : List (String × Entry)} {k : String}
    (hnd : (m.map Prod.fst).Nodup) : mapGet (mapDelete m k) k = none := by
  induction m with
  | nil => rfl
  | cons q rest ih =>
    obtain ⟨k0, e0⟩ := q
    simp only [List.map_cons, List.nodup_cons] at hnd
    by_cases hk : k0 = k
    · simp only [mapDelete, beq_iff_eq]
      rw [if_pos hk]
      exact mapGet_eq_none_of_not_mem (hk ▸ hnd.1)
    · simp only [mapDelete, beq_iff_eq]
      rw [if_neg hk]
      simp only [mapGet, beq_iff_eq]
      rw [if_neg hk]
      exact ih hnd.2

theorem get_none_again {c : TTLCache} {now : Int} {k : String}
    (hnd : UniqKeys c) (h : (c.get now k).1 = none) (now2 : Int) :
    ((c.get now k).2.get now2 k).1 = none := by
  unfold TTLCache.get at h ⊢
  cases hm : mapGet c.cache k with
  | none => simp [hm]
  | some item =>
    simp only [hm] at h ⊢
    by_cases hexp : now - item.timestamp > c.ttl
    · simp only [if_pos hexp]
      simp only [mapGet_mapDelete_self hnd]
    · simp only [if_neg hexp] at h ⊢
      simp only [hm]
      by_cases hexp2 : now2 - item.timestamp > c.ttl
      · simp [hexp2]
      · simp [hexp2, h]

theorem mem_collapseWsAux {c : Char} : ∀ (l : List Char) (b : Bool),
    c ∈ collapseWsAux b l → isJsSpace c = false ∧ (c = '-' ∨ c ∈ l) := by
  intro l
  induction l with
  | nil => intro b h; simp [collapseWsAux] at h
  | cons a t ih =>
    intro b h
    by_cases ha : isJsSpace a
    · cases b with
      | true =>
        simp only [collapseWsAux, if_pos ha] at h
        rcases ih true h with ⟨h1, h2⟩
        exact ⟨h1, h2.imp id (List.mem_cons_of_mem a)⟩
      | false =>
        simp only [collapseWsAux, if_pos ha] at h
        rcases List.mem_cons.mp h with h0 | h0
        · subst h0
          exact ⟨by decide, Or.inl rfl⟩
        · rcases ih true h0 with ⟨h1, h2⟩
          exact ⟨h1, h2.imp id (List.mem_cons_of_mem a)⟩
    · simp only [collapseWsAux, if_neg ha] at h
      rcases List.mem_cons.mp h with h0 | h0
      · exact ⟨by rw [h0]; simpa using ha, Or.inr (h0 ▸ List.mem_cons_self a t)⟩
      · rcases ih false h0 with ⟨h1, h2⟩
        exact ⟨h1, h2.imp id (List.mem_cons_of_mem a)⟩

theorem collapseWsAux_id {l : List Char} (h : ∀ c ∈ l, isJsSpace c = false) :
    ∀ b, collapseWsAux b l = l := by
  induction l with
  | nil => intro b; rfl
  | cons a t ih =>
    intro b
    have ha : isJsSpace a = false := h a (List.mem_cons_self a t)
    simp only [collapseWsAux, ha]
    simp only [Bool.false_eq_true, if_false]
    rw [ih (fun c hc => h c (List.mem_cons_of_mem a hc)) false]

theorem mem_of_mem_dropWhileWs : ∀ {l : List Char} {c : Char},
    c ∈ l.dropWhile isJsSpace → c ∈ l := by
  intro l
  induction l with
  | nil => intro c h; simp at h
  | cons a t ih =>
    intro c h
    by_cases ha : isJsSpace a
    · rw [List.dropWhile_cons_of_pos ha] at h
      exact List.mem_cons_of_mem a (ih h)
    · rw [List.dropWhile_cons_of_neg ha] at h
      exact h

theorem dropWhileWs_id {l : List Char} (h : ∀ c ∈ l, isJsSpace c = false) :
    l.dropWhile isJsSpace = l := by
  cases l with
  | nil => rfl
  | cons a t =>
    have ha := h a (List.mem_cons_self a t)
    rw [List.dropWhile_cons_of_neg (by simp [ha])]

theorem trimWs_subset {l : List Char} {c : Char} (h : c ∈ trimWs l) : c ∈ l := by
  unfold trimWs at h
  rw [List.mem_reverse] at h
  have h2 := mem_of_mem_dropWhileWs h
  rw [List.mem_reverse] at h2
  exact mem_of_mem_dropWhileWs h2

theorem trimWs_id {l : List Char} (h : ∀ c ∈ l, isJsSpace c = false) :
    trimWs l = l := by
  unfold trimWs
  rw [dropWhileWs_id h]
  rw [dropWhileWs_id (fun c hc => h c (List.mem_reverse.mp hc))]
  exact List.reverse_reverse l

theorem mem_formatChars {l : List Char} {c : Char} (h : c ∈ formatChars l) :
    isJsSpace c = false ∧ (c = '-' ∨ keepChar c = true) := by
  unfold formatChars at h
  rcases mem_collapseWsAux _ _ h with ⟨h1, h2⟩
  refine ⟨h1, h2.imp id ?_⟩
  intro h3
  have h4 := trimWs_subset h3
  exact (List.mem_filter.mp h4).2

theorem toLower_eq_self {c : Char} (h1 : keepChar c = true) (h2 : isJsSpace c = false) :
    Char.toLower c = c := by
  simp only [keepChar, Bool.or_eq_true, Bool.and_eq_true, decide_eq_true_eq] at h1
  rw [h2] at h1
  have h3 : (97 ≤ c.toNat ∧ c.toNat ≤ 122) ∨ (48 ≤ c.toNat ∧ c.toNat ≤ 57) := by
    simpa using h1
  show (if c.toNat ≥ 65 ∧ c.toNat ≤ 90 then Char.ofNat (c.toNat + 32) else c) = c
  rw [if_neg (by omega)]

theorem formatChars_formatChars (l : List Char) :
    formatChars (formatChars l) = (formatChars l).filter (fun c => c != '-') := by
  have hmem : ∀ c ∈ formatChars l, isJsSpace c = false ∧ (c = '-' ∨ keepChar c = true) :=
    fun c hc => mem_formatChars hc
  have hmap : (formatChars l).map Char.toLower = formatChars l := by
    have hpt : ∀ c ∈ formatChars l, Char.toLower c = c := by
      intro c hc
      rcases hmem c hc with ⟨h1, h2 | h2⟩
      · rw [h2]; decide
      · exact toLower_eq_self h2 h1
    calc (formatChars l).map Char.toLower = (formatChars l).map id :=
          List.map_congr_left hpt
      _ = formatChars l := List.map_id _
  have hfilter : (formatChars l).filter keepChar =
      (formatChars l).filter (fun c => c != '-') := by
    apply List.filter_congr
    intro c hc
    rcases hmem c hc with ⟨h1, h2 | h2⟩
    · rw [h2]; decide
    · have hne : c ≠ '-' := by
        intro he
        rw [he] at h2
        exact absurd h2 (by decide)
      rw [h2]
      symm
      exact bne_iff_ne.mpr hne
  have hnospace : ∀ c ∈ (formatChars l).filter (fun c => c != '-'), isJsSpace c = false :=
    fun c hc => (hmem c (List.mem_filter.mp hc).1).1
  show collapseWsAux false (trimWs (((formatChars l).map Char.toLower).filter keepChar)) = _
  rw [hmap, hfilter, trimWs_id hnospace, collapseWsAux_id hnospace false]

end MoxCombo

namespace MoxCombo

/-- C2 (counterexample): the normalizer is not idempotent as claimed — at
the concrete input "a b" one application yields "a-b" but a second one
yields "ab", because the hyphen introduced for the whitespace run is itself
stripped by the character filter of the second pass. -/
theorem formatCardName_idempotence_fails :
    ¬ ∀ x : String, formatCardName (formatCardName x) = formatCardName x :=
  fun h => absurd (h "a b") (by decide)

/-- C2 (amended): a second application of the normalizer removes exactly the
hyphens of the first result — `normalize (normalize x)` is `normalize x`
with every hyphen dropped — so idempotence holds precisely on inputs whose
normal form contains no hyphen. -/
theorem formatCardName_twice (x : String) :
    formatCardName (formatCardName x) =
      ⟨(formatCardName x).data.filter (fun c => c != '-')⟩ :=
  congrArg String.mk (formatChars_formatChars x.data)

/-- C6: `set` immediately followed by `get` returns the stored value
(for any value, `null` included) whenever the ttl is non-negative; `get`
returns the absent signal both for a key never stored and for an entry whose
age strictly exceeds the ttl, deleting the stale entry in the latter case;
and the default constructor argument of one hour yields a ttl of 3600000
milliseconds. -/
theorem ttlCache_get_set_spec (c : TTLCache) (now : Int) (k : String) (v : CacheVal) :
    (0 ≤ c.ttl → ((c.set now k v).get now k).1 = v) ∧
    (mapGet c.cache k = none → c.get now k = (none, c)) ∧
    (∀ e, mapGet c.cache k = some e → now - e.timestamp > c.ttl →
      c.get now k = (none, { c with cache := mapDelete c.cache k })) ∧
    (mkTTLCache 1).ttl = 3600000 := by
  refine ⟨?_, ?_, ?_, rfl⟩
  · intro httl
    unfold TTLCache.get TTLCache.set
    simp only [mapGet_mapSet_self]
    have h2 : ¬ (now - now > c.ttl) := by omega
    have h3 : ¬ (c.ttl < 0) := by omega
    simp [h2, h3]
  · intro hnone
    unfold TTLCache.get
    simp [hnone]
  · intro e he hexp
    unfold TTLCache.get
    simp [he, hexp]

/-- Witness for C6 at concrete inputs: a stored list is returned by an
immediate `get`; a `get` on the empty cache misses; a `get` two hours after
storing an entry in a one-hour cache misses and purges the entry. -/
theorem ttlCache_get_set_spec_witness :
    (((mkTTLCache 1).set 0 "k" (some [⟨"h", "r", []⟩])).get 0 "k").1 =
      some [⟨"h", "r", []⟩] ∧
    (mkTTLCache 1).get 0 "k" = (none, mkTTLCache 1) ∧
    ((mkTTLCache 1).set 0 "k" none).get 7200000 "k" =
      (none, { (mkTTLCache 1).set 0 "k" none with
               cache := mapDelete ((mkTTLCache 1).set 0 "k" none).cache "k" }) :=
  ⟨(ttlCache_get_set_spec (mkTTLCache 1) 0 "k" (some [⟨"h", "r", []⟩])).1 (by decide),
   (ttlCache_get_set_spec (mkTTLCache 1) 0 "k" none).2.1 (by decide),
   (ttlCache_get_set_spec ((mkTTLCache 1).set 0 "k" none) 7200000 "k" none).2.2.1
     ⟨none, 0⟩ (by decide) (by decide)⟩

/-- C9: the cache cannot distinguish a stored `null` from an absent key:
after `set k null`, any later `get k` returns the same `null` that a `get`
on a never-stored key returns, even though an entry carrying `null` and the
store timestamp is present in the underlying map. -/
theorem cache_null_vs_absent (c : TTLCache) (now now2 : Int) (k : String) :
    ((c.set now k none).get now2 k).1 = none ∧
    (mapGet c.cache k = none → (c.get now2 k).1 = none) ∧
    mapGet ((c.set now k none).cache) k = some ⟨none, now⟩ := by
  refine ⟨?_, ?_, ?_⟩
  · unfold TTLCache.get TTLCache.set
    simp only [mapGet_mapSet_self]
    by_cases hexp : now2 - now > c.ttl <;> simp [hexp]
  · intro hnone
    unfold TTLCache.get
    simp [hnone]
  · exact mapGet_mapSet_self c.cache k ⟨none, now⟩

/-- Witness for C9's implication at a concrete input: a `get` on the empty
cache returns the absent signal. -/
theorem cache_null_vs_absent_witness :
    ((mkTTLCache 1).get 5 "k").1 = none :=
  (cache_null_vs_absent (mkTTLCache 1) 0 5 "k").2.1 (by decide)

theorem wf_get {c : TTLCache} (h : WellFormedCache c) (now : Int) (k : String) :
    WellFormedCache (c.get now k).2 := by
  unfold TTLCache.get
  cases hm : mapGet c.cache k with
  | none => exact h
  | some item =>
    by_cases hexp : now - item.timestamp > c.ttl
    · simp only [if_pos hexp]
      intro p hp
      exact h p (mem_mapDelete hp)
    · simp only [if_neg hexp]
      exact h

theorem wf_set {c : TTLCache} (h : WellFormedCache c) {now : Int} {k : String}
    {v : CacheVal} (hv : WellFormedVal v) : WellFormedCache (c.set now k v) := by
  intro p hp
  rcases mem_mapSet hp with hp1 | hp1
  · subst hp1
    exact hv
  · exact h p hp1

/-- C3: the well-formedness invariant — every cache entry holds `null` or a
non-empty list of combo records, never an empty array — is preserved by a
whole `fetchComboData` step, whatever the response: the 403 branch writes
`null`, and the success branch coerces an empty filtered list to `null`
before calling `cache.set`. -/
theorem fetchComboData_preserves_wf (c : TTLCache) (now : Int) (name : String)
    (resp : FetchOutcome) (h : WellFormedCache c) :
    WellFormedCache (fetchComboData c now name resp).cache := by
  have hget : WellFormedCache (c.get now name).2 := wf_get h now name
  unfold fetchComboData
  by_cases hc : (c.get now name).1.isSome
  · simp only [if_pos hc]
    exact hget
  · simp only [if_neg hc]
    cases resp with
    | thrown => exact hget
    | httpErr s =>
      by_cases h403 : s == 403
      · simp only [if_pos h403]
        exact wf_set hget (Or.inl rfl)
      · simp only [if_neg h403]
        exact hget
    | ok body =>
      apply wf_set hget
      by_cases hl : (filteredCombos name body).length > 0
      · simp only [if_pos hl]
        exact Or.inr ⟨filteredCombos name body, rfl, by
          intro hnil
          rw [hnil] at hl
          simp at hl⟩
      · simp only [if_neg hl]
        exact Or.inl rfl

/-- Witness for C3 at a concrete input: starting from the empty cache (which
is well formed), a 403 step leaves a well-formed cache. -/
theorem fetchComboData_preserves_wf_witness :
    WellFormedCache (fetchComboData (mkTTLCache 1) 0 "x" (.httpErr 403)).cache :=
  fetchComboData_preserves_wf (mkTTLCache 1) 0 "x" (.httpErr 403)
    (by intro p hp; simp [mkTTLCache] at hp)

/-- C4: on a cache miss, a non-success HTTP response makes `fetchComboData`
return `null`; the cache is written exactly when the status is 403 (and the
written value is `null`), while any other non-2xx status leaves the cache as
the lookup left it, so a later call with the same name reaches the network
again. -/
theorem fetchComboData_http_error (c : TTLCache) (now now2 : Int) (name : String)
    (s : Nat) (resp2 : FetchOutcome) (hmiss : (c.get now name).1 = none) :
    (fetchComboData c now name (.httpErr s)).value = none ∧
    (fetchComboData c now name (.httpErr s)).cache =
      (if s == 403 then ((c.get now name).2).set now name none
       else (c.get now name).2) ∧
    (s ≠ 403 → UniqKeys c →
      (fetchComboData (fetchComboData c now name (.httpErr s)).cache
        now2 name resp2).fetched = true) := by
  have hns : ¬ (c.get now name).1.isSome := by simp [hmiss]
  refine ⟨?_, ?_, ?_⟩
  · unfold fetchComboData
    simp only [if_neg hns]
    by_cases h403 : s == 403 <;> simp [h403]
  · unfold fetchComboData
    simp only [if_neg hns]
    by_cases h403 : s == 403 <;> simp [h403]
  · intro hne hnd
    have hcache : (fetchComboData c now name (.httpErr s)).cache = (c.get now name).2 := by
      unfold fetchComboData
      simp only [if_neg hns]
      have h403 : ¬ (s == 403) = true := by simp [hne]
      simp [h403]
    rw [hcache]
    have hagain : ((c.get now name).2.get now2 name).1 = none :=
      get_none_again hnd hmiss now2
    have hns2 : ¬ ((c.get now name).2.get now2 name).1.isSome := by simp [hagain]
    unfold fetchComboData
    simp only [if_neg hns2]
    cases resp2 with
    | thrown => rfl
    | httpErr s2 => by_cases h2 : s2 == 403 <;> simp [h2]
    | ok body => rfl

/-- Witness for C4 at a concrete input: a 500 response on the empty cache
returns `null`, and an immediately following call for the same name reaches
the network again. -/
theorem fetchComboData_http_error_witness :
    (fetchComboData (mkTTLCache 1) 0 "x" (.httpErr 500)).value = none ∧
    (fetchComboData (fetchComboData (mkTTLCache 1) 0 "x" (.httpErr 500)).cache
      1 "x" .thrown).fetched = true :=
  ⟨(fetchComboData_http_error (mkTTLCache 1) 0 1 "x" 500 .thrown (by decide)).1,
   (fetchComboData_http_error (mkTTLCache 1) 0 1 "x" 500 .thrown (by decide)).2.2
     (by decide) (by simp [UniqKeys, mkTTLCache])⟩

theorem startsList_iff (p : List Char) : ∀ l : List Char,
    (startsList p l = true ↔ ∃ t, l = p ++ t) := by
  induction p with
  | nil => intro l; simp [startsList]
  | cons a as ih =>
    intro l
    cases l with
    | nil =>
      simp [startsList]
    | cons b bs =>
      simp only [startsList, Bool.and_eq_true, beq_iff_eq, ih, List.cons_append,
        List.cons_eq_cons]
      constructor
      · rintro ⟨h1, t, h2⟩
        exact ⟨t, h1.symm, h2⟩
      · rintro ⟨t, h1, h2⟩
        exact ⟨h1.symm, t, h2⟩

theorem includesList_iff (needle : List Char) : ∀ hay : List Char,
    (includesList needle hay = true ↔ ∃ pre post, hay = pre ++ needle ++ post) := by
  intro hay
  induction hay with
  | nil =>
    simp only [includesList, startsList_iff]
    constructor
    · rintro ⟨t, ht⟩
      refine ⟨[], t, ?_⟩
      simpa using ht
    · rintro ⟨pre, post, hp⟩
      refine ⟨post, ?_⟩
      have hpre : pre = [] := by
        cases pre with
        | nil => rfl
        | cons x xs => simp at hp
      subst hpre
      simpa using hp
  | cons c t ih =>
    simp only [includesList, Bool.or_eq_true, startsList_iff, ih]
    constructor
    · rintro (⟨t2, ht⟩ | ⟨pre, post, hp⟩)
      · refine ⟨[], t2, ?_⟩
        simpa using ht
      · exact ⟨c :: pre, post, by simp [hp]⟩
    · rintro ⟨pre, post, hp⟩
      cases pre with
      | nil =>
        refine Or.inl ⟨post, ?_⟩
        simpa using hp
      | cons c2 pre2 =>
        simp only [List.cons_append, List.cons_eq_cons] at hp
        exact Or.inr ⟨pre2, post, hp.2⟩

/-- C5: for a successful body (headers being strings by the shape of the
model), the fetch step keeps exactly the groups satisfying the spec's
condition — a matching sanitized cardview or the raw name occurring in the
header — and projects every kept group to a record made of that group's
header, href and results. -/
theorem filteredCombos_spec (name : String) (body : ApiBody) (g : ComboGroup) :
    filteredCombos name body =
      ((body.cardlists.getD []).filter (keepGroup (formatCardName name) name)).map projGroup ∧
    (keepGroup (formatCardName name) name g = true ↔ keepGroupSpec name g) ∧
    projGroup g = ⟨g.header, g.href, (g.combo.map ComboField.results).getD []⟩ := by
  refine ⟨rfl, ?_, rfl⟩
  unfold keepGroup keepGroupSpec strIncludes
  cases hcv : g.cardviews with
  | none =>
    simp [includesList_iff]
  | some cvs =>
    simp [List.any_eq_true, includesList_iff, beq_iff_eq]

/-- C1 (code bug): with an empty cache, a first `fetchComboData` call whose
response is HTTP 403 reaches the network and caches `null` for the name, and
a second call for the same raw name only one second later — well inside the
one-hour TTL, with the cached-`null` entry still present in the map — reaches
the network again: the truthiness check `if (cachedData)` treats the stored
`null` as a miss, so two invocations within one TTL window after a 403
perform two network calls, not one. -/
theorem fetchComboData_double_fetch_after_403 :
    (fetchComboData (mkTTLCache 1) 0 "x" (.httpErr 403)).fetched = true ∧
    (fetchComboData (mkTTLCache 1) 0 "x" (.httpErr 403)).value = none ∧
    mapGet ((fetchComboData (mkTTLCache 1) 0 "x" (.httpErr 403)).cache).cache "x" =
      some ⟨none, 0⟩ ∧
    (fetchComboData (fetchComboData (mkTTLCache 1) 0 "x" (.httpErr 403)).cache
        1000 "x" (.httpErr 403)).fetched = true := by
  decide

/-- C7: the normalizer maps the spec's concrete inputs as stated; it is a
pure function of its argument by construction (a Lean function of the input
string alone). -/
theorem formatCardName_examples :
    formatCardName "Birgi, God of Storytelling" = "birgi-god-of-storytelling" ∧
    formatCardName "  Dockside   Extortionist!! " = "dockside-extortionist" := by
  decide

/-- C8: rendering with null combos removes any existing panel and stops:
whatever the prior DOM state, the result is exactly the prior state with the
panel slot emptied — no panel with the fixed id remains and nothing new is
created. -/
theorem displayComboResults_null (d : Dom) (name : String) :
    displayComboResults d name none = { d with panel := none } :=
  rfl

/-- C10: an empty (non-null) combo array is not the null case: the old panel
is removed and, when the aside anchor exists, a fresh panel is injected whose
header shows a count of 0 and which contains zero combo entries. -/
theorem displayComboResults_empty_list (d : Dom) (name : String) :
    displayComboResults d name (some []) =
      (if d.hasAside then
        { d with panel := some { headerText := "Combo For " ++ name ++ " (" ++ "0" ++ ")"
                                 entries := [] } }
       else { d with panel := none }) := by
  obtain ⟨panel, hasAside⟩ := d
  cases hasAside <;> rfl

end MoxCombo
